import Mathlib

/-!
Shallow embedding of the two client programs of the DistributedMandelbrot
repository:
  - DistributedMandelbrotWorkerCUDA/DistributedMandelbrotWorkerCUDA.py
  - DistributedMandelbrotViewer/DistributedMandelbrotViewer.py
Python float64 arithmetic is modelled with exact rationals (the escape-time
loop and the geometry mapping are algebraically identical; the normalization
step `out * 256 / mrd` with `mrd = 1024` is exact in float64, see the
comment at `normalize_byte`).  Machine integers are modelled as `Nat`/`Int`
with explicit reductions modulo 2^w where the code can overflow.  Python
exceptions (struct.error, ZeroDivisionError, raise) are modelled by
`Option`: `none` means the operation raised.
-/

namespace DistributedMandelbrot

/-- Constant `MIN_AXIS = -2` (both source files). -/
def MIN_AXIS : ℚ := -2

/-- Constant `MAX_AXIS = 2` (both source files). -/
def MAX_AXIS : ℚ := 2

/-- Constant `CHUNK_WIDTH = 4096` (viewer); also `definition = 4096` in the worker. -/
def CHUNK_WIDTH : ℕ := 4096

/-! ## calc_mb_value (worker, lines 39-68)

The body of the `for i in range(1, mrd)` loop: square `z`, add `c`,
yielding the next iterate.  The source represents complex numbers as pairs
of float64; we use pairs of rationals. -/

/-- One loop body step of `calc_mb_value`: `z ← z² + c` computed exactly as
in the source (`(z0*z0 - z1*z1, 2*z0*z1)` then componentwise `+ c`). -/
def mb_step (c z : ℚ × ℚ) : ℚ × ℚ :=
  (z.1 * z.1 - z.2 * z.2 + c.1, 2 * z.1 * z.2 + c.2)

/-- The squared magnitude `z[0]*z[0] + z[1]*z[1]` tested against 4. -/
def sq_mag (z : ℚ × ℚ) : ℚ := z.1 * z.1 + z.2 * z.2

/-- The loop of `calc_mb_value`: current loop variable `i`, with `rem`
iterations of `range(1, mrd)` left to run.  Each pass squares-and-adds,
then returns `i` if `sq_mag z ≥ 4`; falling off the loop returns 0. -/
def mb_loop (c : ℚ × ℚ) : ℚ × ℚ → ℕ → ℕ → ℕ
  | _, _, 0 => 0
  | z, i, rem + 1 =>
      let z2 := mb_step c z
      if 4 ≤ sq_mag z2 then i else mb_loop c z2 (i + 1) rem

/-- Function `calc_mb_value(r, i, mrd)` (worker lines 39-68): `c = z = (r, i)`;
`for i in range(1, mrd)` runs `(mrd - 1).toNat` times with the loop
variable starting at 1.  `mrd` is an `int32` in the source; its value in
the program is 1024, far from overflow, so `ℤ` is faithful. -/
def calc_mb_value (r i : ℚ) (mrd : ℤ) : ℕ :=
  mb_loop (r, i) (r, i) 1 (mrd - 1).toNat

/-- The sequence of iterates of `z ← z² + c` starting from `z₀ = c`; the
value the source's `z` holds when the loop-body check for index `k` runs
is `mb_orbit c k`. -/
def mb_orbit (c : ℚ × ℚ) : ℕ → ℚ × ℚ
  | 0 => c
  | k + 1 => mb_step c (mb_orbit c k)

/-- The escape test at iteration `k`: the `k`-th iterate has `|z|² ≥ 4`. -/
def escapes_at (c : ℚ × ℚ) (k : ℕ) : Prop := 4 ≤ sq_mag (mb_orbit c k)

instance (c : ℚ × ℚ) (k : ℕ) : Decidable (escapes_at c k) := by
  unfold escapes_at; infer_instance

/-! ## Normalization (worker, lines 96-98)

`out = (out.astype(np.float64) * 256) / mrd; out = out.astype(np.uint8)`.
For the iteration counts the kernel produces (`count < mrd = 1024`),
`count * 256` is exact in float64 and division by the power of two 1024 is
exact, so the float value is exactly the rational `count * 256 / 1024`,
whose floor `astype(np.uint8)` takes (truncation toward zero of a
non-negative value), reduced mod 2^8 by the unsigned cast.  We model this
with Nat floor division and an explicit `% 256`. -/

/-- The per-sample normalization `uint8((count * 256) / cap)`. -/
def normalize_byte (count cap : ℕ) : ℕ := count * 256 / cap % 256

/-! ## gen_arrays (worker, lines 19-37)

`np.linspace(start, stop, num)` (default `endpoint=True`): `num` evenly
spaced samples over `[start, stop]`; for `num ≥ 2` sample `k` is
`start + (stop - start) · k / (num - 1)`; `num = 1` gives `[start]` and
`num = 0` gives `[]`.  `np.tile(r, n)` concatenates `n` copies of `r`;
`np.repeat(i, n)` repeats each element `n` times in place. -/

def linspace (start stop : ℚ) (num : ℕ) : List ℚ :=
  if num ≤ 1 then List.replicate num start
  else (List.range num).map (fun k : ℕ => start + (stop - start) * (k : ℚ) / ((num : ℚ) - 1))

def np_tile (l : List ℚ) (n : ℕ) : List ℚ := (List.replicate n l).flatten

def np_repeat (l : List ℚ) (n : ℕ) : List ℚ := (l.map (List.replicate n)).flatten

def gen_arrays (start_r start_i _range : ℚ) (definition : ℕ) : List ℚ × List ℚ :=
  let r := linspace start_r (start_r + _range) definition
  let i := linspace start_i (start_i + _range) definition
  (np_tile r definition, np_repeat i definition)

/-! ## process_workload geometry (worker, lines 70-77)

`chunk_range = (MAX_AXIS - MIN_AXIS) / level` is Python true division of
integers; with `level = 0` it raises `ZeroDivisionError` before any window
is produced, modelled as `none`.  `level`, `index_real`, `index_imag` are
`uint32` values read off the wire. -/

/-- The geometry computation at the head of `process_workload`. -/
def chunk_window (level index_real index_imag : ℕ) : Option (ℚ × ℚ × ℚ) :=
  if level = 0 then none
  else
    some (MIN_AXIS + (MAX_AXIS - MIN_AXIS) / (level : ℚ) * index_real,
      MIN_AXIS + (MAX_AXIS - MIN_AXIS) / (level : ℚ) * index_imag,
      (MAX_AXIS - MIN_AXIS) / (level : ℚ))

/-! ## Tile codec (viewer, lines 35-60 and 91-102)

`struct` formats without a byte-order prefix use the platform's native
order; both clients run on x86-64, so multi-byte integers are
little-endian.  `unpack("IB", run_data)` on a slice shorter than 5 bytes
raises `struct.error`; `raw_data[0]` on an empty payload raises
`IndexError`; an unknown tag byte raises; after decoding, `get_chunk`
raises unless the grid has exactly `CHUNK_WIDTH²` bytes.  Every raise is
modelled as `none`: no partial tile is ever returned. -/

/-- A 4-byte little-endian `uint32`, as `unpack("I", ·)` reads it. -/
def u32_of_le (b0 b1 b2 b3 : ℕ) : ℕ := b0 + 256 * (b1 + 256 * (b2 + 256 * b3))

/-- Function `deserialize_rle` (viewer lines 35-50): consume the body five
bytes at a time, each run `(count: uint32 LE, value: uint8)`, appending
`count` copies of `value`; a trailing slice shorter than 5 bytes makes
`unpack` raise. -/
def deserialize_rle : List ℕ → Option (List ℕ)
  | [] => some []
  | b0 :: b1 :: b2 :: b3 :: v :: rest =>
      (deserialize_rle rest).map
        (fun tail => List.replicate (u32_of_le b0 b1 b2 b3) v ++ tail)
  | _ => none

/-- The 5-byte wire form of one RLE run `(count, value)`. -/
def rle_run_bytes (count v : ℕ) : List ℕ :=
  [count % 256, count / 256 % 256, count / 256 ^ 2 % 256, count / 256 ^ 3 % 256, v]

/-- Function `chunk_data_to_value_array` (viewer lines 52-60): tag byte 0
is a raw body, 1 an RLE body; anything else raises, as does an empty
payload at `raw_data[0]`. -/
def chunk_data_to_value_array : List ℕ → Option (List ℕ)
  | [] => none
  | t :: body =>
      if t = 0 then some body
      else if t = 1 then deserialize_rle body
      else none

/-- The decoding tail of `get_chunk` (viewer lines 91-102): decode the
payload, then raise unless the grid has exactly `CHUNK_WIDTH²` bytes. -/
def get_chunk_grid (raw : List ℕ) : Option (List ℕ) :=
  (chunk_data_to_value_array raw).bind
    (fun d => if d.length = CHUNK_WIDTH * CHUNK_WIDTH then some d else none)

/-! ## Socket reads (viewer lines 19-33 and 76-91; worker lines 102-108)

A socket is modelled as the list of bytes still to arrive plus a chunking
schedule `sched`: the `recv` call at position `step` asking for `want`
bytes yields `min (min want (max 1 (sched step))) remaining` bytes off the
front of the stream — between 1 and `want` bytes whenever the stream is
nonempty (TCP may deliver fewer bytes than requested), and zero bytes
exactly at end-of-stream, which `recv_sock_msg_by_len` turns into a raised
exception (`none`). -/

/-- How many bytes one `s.recv(want)` call returns. -/
def recv_len (sched : ℕ → ℕ) (step want remaining : ℕ) : ℕ :=
  min (min want (max 1 (sched step))) remaining

/-- The `while len(out) < n` loop of `recv_sock_msg_by_len` (viewer lines
19-33), tracking `need = n - len(out)`: a `recv` at end-of-stream raises
(`none`); otherwise between 1 and `need` bytes arrive and the loop
repeats.  Terminates because every successful `recv` yields at least one
byte. -/
def recv_msg_loop (sched : ℕ → ℕ) : List ℕ → ℕ → ℕ → Option (List ℕ)
  | _, _, 0 => some []
  | stream, step, need + 1 =>
      if stream.length = 0 then none
      else
        let k := recv_len sched step (need + 1) stream.length
        (recv_msg_loop sched (stream.drop k) (step + 1) (need + 1 - k)).map
          (fun rest => stream.take k ++ rest)
  termination_by _ _ need => need
  decreasing_by
    simp only [recv_len]
    omega

/-- Function `recv_sock_msg_by_len(s, n)` under chunk schedule `sched`. -/
def recv_sock_msg_by_len (sched : ℕ → ℕ) (stream : List ℕ) (n : ℕ) :
    Option (List ℕ) :=
  recv_msg_loop sched stream 0 n

/-- A single `s.recv(want)` call at schedule position `step`: the bytes it
yields and the rest of the stream. -/
def recv_once_at (sched : ℕ → ℕ) (step : ℕ) (stream : List ℕ) (want : ℕ) :
    List ℕ × List ℕ :=
  let k := recv_len sched step want stream.length
  (stream.take k, stream.drop k)

/-- Function `receive_workload` (worker lines 102-108): three bare
`unpack("I", sock.recv(4))` calls with no short-read loop —
`struct.unpack` raises (`none`) whenever a single `recv` yields fewer
than 4 bytes. -/
def receive_workload (sched : ℕ → ℕ) (stream : List ℕ) : Option (ℕ × ℕ × ℕ) :=
  match recv_once_at sched 0 stream 4 with
  | ([a0, a1, a2, a3], s1) =>
    match recv_once_at sched 1 s1 4 with
    | ([b0, b1, b2, b3], s2) =>
      match recv_once_at sched 2 s2 4 with
      | ([c0, c1, c2, c3], _) =>
          some (u32_of_le a0 a1 a2 a3, u32_of_le b0 b1 b2 b3,
            u32_of_le c0 c1 c2 c3)
      | _ => none
    | _ => none
  | _ => none

/-! ## Status-code handling (viewer lines 13-15 and 78-85; worker lines
10-17, 120-131 and 155-165) -/

/-- Code `REQUEST_ACCEPT_CODE = 0x00` (viewer). -/
def REQUEST_ACCEPT_CODE : ℕ := 0x00

/-- Code `REQUEST_REJECT_CODE = 0x01` (viewer). -/
def REQUEST_REJECT_CODE : ℕ := 0x01

/-- Code `REQUEST_NOT_AVAILABLE_CODE = 0x02` (viewer). -/
def REQUEST_NOT_AVAILABLE_CODE : ℕ := 0x02

/-- Code `WORKLOAD_AVAILABLE_CODE = 0x10` (worker). -/
def WORKLOAD_AVAILABLE_CODE : ℕ := 0x10

/-- Code `WORKLOAD_NOT_AVAILABLE_CODE = 0x11` (worker). -/
def WORKLOAD_NOT_AVAILABLE_CODE : ℕ := 0x11

/-- Code `WORKLOAD_ACCEPT_CODE = 0x20` (worker). -/
def WORKLOAD_ACCEPT_CODE : ℕ := 0x20

/-- Code `WORKLOAD_REJECT_CODE = 0x21` (worker). -/
def WORKLOAD_REJECT_CODE : ℕ := 0x21

/-- What `get_chunk` does right after reading the status byte. -/
inductive ViewerOutcome
  /-- returns `None, False` — no data, no body read, no exception. -/
  | noData
  /-- raises `Exception("Request was rejected")`. -/
  | raiseRejected
  /-- raises on an unknown request status code. -/
  | raiseUnknown
  /-- fall through and read the length-prefixed body. -/
  | readBody
  deriving DecidableEq

/-- The status dispatch of `get_chunk` (viewer lines 78-85), in source
order: NotAvailable returns `(None, False)`; Reject RAISES; any unknown
code raises; Accept proceeds to the body. -/
def get_chunk_status_dispatch (status : ℕ) : ViewerOutcome :=
  if status = REQUEST_NOT_AVAILABLE_CODE then ViewerOutcome.noData
  else if status = REQUEST_REJECT_CODE then ViewerOutcome.raiseRejected
  else if status ≠ REQUEST_ACCEPT_CODE then ViewerOutcome.raiseUnknown
  else ViewerOutcome.readBody

/-- What `do_workload_single` does after reading the pull response. -/
inductive WorkerPullOutcome
  /-- receive the 12-byte workload and go compute it. -/
  | receiveAndCompute
  /-- returns `False` — the main loop stops; no exception. -/
  | stopFalse
  /-- raises on an unknown response code. -/
  | raiseUnknown
  deriving DecidableEq

/-- The pull-response dispatch (worker lines 120-131). -/
def do_workload_pull_dispatch (response : ℕ) : WorkerPullOutcome :=
  if response = WORKLOAD_AVAILABLE_CODE then WorkerPullOutcome.receiveAndCompute
  else if response = WORKLOAD_NOT_AVAILABLE_CODE then WorkerPullOutcome.stopFalse
  else WorkerPullOutcome.raiseUnknown

/-- What `do_workload_single` does after reading the push response. -/
inductive WorkerPushOutcome
  /-- accepted: send the tile bytes, then `return True`. -/
  | acceptSend
  /-- rejected: `return True` at once — the loop continues, no
  exception. -/
  | rejectContinue
  /-- raises on an unknown response code. -/
  | raiseUnknown
  deriving DecidableEq

/-- The push-response dispatch (worker lines 155-165). -/
def do_workload_push_dispatch (response : ℕ) : WorkerPushOutcome :=
  if response = WORKLOAD_ACCEPT_CODE then WorkerPushOutcome.acceptSend
  else if response = WORKLOAD_REJECT_CODE then WorkerPushOutcome.rejectContinue
  else WorkerPushOutcome.raiseUnknown

/-! ## Coordinator state machine

Modelled from the spec: the coordinator program is absent from the
repository source (only its two clients are present); §3, §4.4 and §8 of
the spec fix its per-address lifecycle
`Unseen → Pending → Assigned(workerId) → Completed(tile)` and the
`SubmitResult` accept/reject rule. -/

/-- Modelled from the spec: the lifecycle state of one tile address in
the missing coordinator (spec §3 "Workload" and §4.4). -/
inductive AddrState
  /-- never requested nor assigned. -/
  | unseen
  /-- registered, waiting for a worker. -/
  | pending
  /-- leased to worker `workerId`. -/
  | assigned (workerId : ℕ)
  /-- terminal: the cached tile bytes. -/
  | completed (tile : List ℕ)
  deriving DecidableEq

/-- The coordinator's reply to a `SubmitResult`. -/
inductive SubmitStatus
  /-- `WorkloadAccept`. -/
  | accept
  /-- `WorkloadReject`. -/
  | reject
  deriving DecidableEq

/-- Modelled from the spec: operation `SubmitResult(workerId, address, tileBytes)`
(spec §4.4) — the missing coordinator accepts and stores the tile exactly
when `address` is `Assigned` to this worker; when the address is already
`Completed`, assigned to a different worker, or not assigned at all, it
discards the bytes, changes nothing and returns `Reject`.  The
coordinator state is its per-address table. -/
def submit_result (st : ℕ × ℕ × ℕ → AddrState) (workerId : ℕ)
    (address : ℕ × ℕ × ℕ) (tileBytes : List ℕ) :
    SubmitStatus × (ℕ × ℕ × ℕ → AddrState) :=
  match st address with
  | AddrState.assigned w =>
      if w = workerId then
        (SubmitStatus.accept,
          fun a => if a = address then AddrState.completed tileBytes else st a)
      else (SubmitStatus.reject, st)
  | _ => (SubmitStatus.reject, st)

/-- A sample coordinator table: address `(1, 2, 3)` completed with tile
`[9, 9]`, everything else pending. -/
def example_completed_state : ℕ × ℕ × ℕ → AddrState := fun a =>
  if a = (1, 2, 3) then AddrState.completed [9, 9] else AddrState.pending

/-! ## Lemmas and theorems -/

/-! ### Loop characterization lemmas -/

/-- If no iteration index in `[m+1, m+rem]` escapes, the loop exhausts its
fuel and returns 0. -/
lemma mb_loop_no_escape (c : ℚ × ℚ) (rem : ℕ) :
    ∀ m : ℕ, (∀ j, m + 1 ≤ j → j ≤ m + rem → ¬ escapes_at c j) →
      mb_loop c (mb_orbit c m) (m + 1) rem = 0 := by
  induction rem with
  | zero => intro m _; rfl
  | succ n ih =>
      intro m h
      have hne : ¬ escapes_at c (m + 1) := h (m + 1) le_rfl (by omega)
      have h4 : ¬ 4 ≤ sq_mag (mb_step c (mb_orbit c m)) := by
        simpa [escapes_at, mb_orbit] using hne
      simp only [mb_loop, h4, if_false]
      have := ih (m + 1) (fun j hj1 hj2 => h j (by omega) (by omega))
      simpa [mb_orbit] using this

/-- If `k` is the least escaping index and lies within the fuel window
`[m+1, m+rem]`, the loop returns `k`. -/
lemma mb_loop_escape (c : ℚ × ℚ) (rem : ℕ) :
    ∀ m k : ℕ, m + 1 ≤ k → k ≤ m + rem → escapes_at c k →
      (∀ j, m + 1 ≤ j → j < k → ¬ escapes_at c j) →
      mb_loop c (mb_orbit c m) (m + 1) rem = k := by
  induction rem with
  | zero => intro m k h1 h2 _ _; omega
  | succ n ih =>
      intro m k h1 h2 he hmin
      by_cases hesc : escapes_at c (m + 1)
      · have hk : k = m + 1 := by
          by_contra hne
          exact hmin (m + 1) le_rfl (by omega) hesc
        have h4 : 4 ≤ sq_mag (mb_step c (mb_orbit c m)) := by
          simpa [escapes_at, mb_orbit] using hesc
        simp only [mb_loop, h4, if_true, hk]
      · have h4 : ¬ 4 ≤ sq_mag (mb_step c (mb_orbit c m)) := by
          simpa [escapes_at, mb_orbit] using hesc
        simp only [mb_loop, h4, if_false]
        have hk1 : m + 1 + 1 ≤ k := by
          rcases Nat.eq_or_lt_of_le h1 with h | h
          · exact absurd (h ▸ he) hesc
          · omega
        have := ih (m + 1) k hk1 (by omega) he
          (fun j hj1 hj2 => hmin j (by omega) hj2)
        simpa [mb_orbit] using this

/-- The loop result is 0 or a loop index strictly below `i + rem`. -/
lemma mb_loop_bound (c : ℚ × ℚ) (rem : ℕ) :
    ∀ i z, mb_loop c z i rem = 0 ∨ mb_loop c z i rem < i + rem := by
  induction rem with
  | zero => intro i z; left; rfl
  | succ n ih =>
      intro i z
      by_cases h : 4 ≤ sq_mag (mb_step c z)
      · right; simp only [mb_loop, h, if_true]; omega
      · simp only [mb_loop, h, if_false]
        rcases ih (i + 1) (mb_step c z) with h0 | hlt
        · left; exact h0
        · right; omega

/-- The orbit of `c = 0 + 0i` is constantly 0. -/
lemma mb_orbit_zero (k : ℕ) : mb_orbit (0, 0) k = (0, 0) := by
  induction k with
  | zero => rfl
  | succ n ih =>
      show mb_step (0, 0) (mb_orbit (0, 0) n) = (0, 0)
      rw [ih]; norm_num [mb_step]

/-- The point `c = 0 + 0i` never escapes. -/
lemma not_escapes_zero (j : ℕ) : ¬ escapes_at (0, 0) j := by
  rw [escapes_at, mb_orbit_zero]; norm_num [sq_mag]

/-- Function `calc_mb_value` never returns a value beyond `(mrd - 1).toNat`. -/
lemma calc_mb_value_le (r i : ℚ) (mrd : ℤ) :
    calc_mb_value r i mrd ≤ (mrd - 1).toNat := by
  rcases mb_loop_bound (r, i) (mrd - 1).toNat 1 (r, i) with h | h
  · show mb_loop (r, i) (r, i) 1 (mrd - 1).toNat ≤ (mrd - 1).toNat
    rw [h]; exact Nat.zero_le _
  · show mb_loop (r, i) (r, i) 1 (mrd - 1).toNat ≤ (mrd - 1).toNat
    omega

/-- C1. For every point `c = (r, i)` and cap `mrd`, `calc_mb_value` returns
the least index `k` with `1 ≤ k ≤ mrd - 1` whose iterate of `z ← z² + c`
from `z = c` has `|z|² ≥ 4`, and returns 0 when no index in that range
escapes; in particular `c = 0 + 0i` gives 0 for every positive cap. -/
theorem calc_mb_value_spec (r i : ℚ) (mrd : ℤ) :
    (∀ k : ℕ, 1 ≤ k → (k : ℤ) ≤ mrd - 1 → escapes_at (r, i) k →
        (∀ j : ℕ, 1 ≤ j → j < k → ¬ escapes_at (r, i) j) →
        calc_mb_value r i mrd = k)
    ∧ ((∀ k : ℕ, 1 ≤ k → (k : ℤ) ≤ mrd - 1 → ¬ escapes_at (r, i) k) →
        calc_mb_value r i mrd = 0)
    ∧ (∀ cap : ℤ, 1 ≤ cap → calc_mb_value 0 0 cap = 0) := by
  refine ⟨?_, ?_, ?_⟩
  · intro k hk1 hk2 he hmin
    have hk3 : k ≤ 0 + (mrd - 1).toNat := by omega
    have := mb_loop_escape (r, i) (mrd - 1).toNat 0 k (by omega) hk3 he
      (fun j hj1 hj2 => hmin j hj1 hj2)
    simpa [calc_mb_value, mb_orbit] using this
  · intro h
    have := mb_loop_no_escape (r, i) (mrd - 1).toNat 0
      (fun j hj1 hj2 => h j hj1 (by omega))
    simpa [calc_mb_value, mb_orbit] using this
  · intro cap _
    have := mb_loop_no_escape (0, 0) (cap - 1).toNat 0
      (fun j _ _ => not_escapes_zero j)
    simpa [calc_mb_value, mb_orbit] using this

/-- Witness for C1: `c = 3` escapes at the first iteration under cap 5
(first iterate `3² + 3 = 12`), and `c = 0` gives 0 under cap 7. -/
theorem calc_mb_value_spec_witness :
    calc_mb_value 3 0 5 = 1 ∧ calc_mb_value 0 0 7 = 0 := by
  constructor
  · exact (calc_mb_value_spec 3 0 5).1 1 (by norm_num) (by norm_num)
      (by norm_num [escapes_at, mb_orbit, mb_step, sq_mag])
      (fun j hj1 hj2 => absurd (lt_of_lt_of_le hj2 hj1) (lt_irrefl j))
  · exact (calc_mb_value_spec 0 0 7).2.2 7 (by norm_num)

/-- C10. For `mrd ≤ 1` the loop `range(1, mrd)` is empty, so
`calc_mb_value` returns 0 for every input point, and the normalized byte
of that count is 0 under every positive cap. -/
theorem calc_mb_value_cap_le_one (r i : ℚ) (mrd : ℤ) (h : mrd ≤ 1) :
    calc_mb_value r i mrd = 0
    ∧ (∀ cap : ℕ, 1 ≤ cap → normalize_byte (calc_mb_value r i mrd) cap = 0) := by
  have h0 : (mrd - 1).toNat = 0 := by omega
  have hc : calc_mb_value r i mrd = 0 := by
    simp [calc_mb_value, h0, mb_loop]
  exact ⟨hc, fun cap _ => by simp [hc, normalize_byte]⟩

/-- Witness for C10 at `r = 5, i = 7, mrd = 1` (and `mrd = 0`). -/
theorem calc_mb_value_cap_le_one_witness :
    calc_mb_value 5 7 1 = 0 ∧ normalize_byte (calc_mb_value 5 7 1) 1024 = 0 := by
  refine ⟨(calc_mb_value_cap_le_one 5 7 1 (by norm_num)).1, ?_⟩
  exact (calc_mb_value_cap_le_one 5 7 1 (by norm_num)).2 1024 (by norm_num)

/-- C3. Under the program's cap `mrd = 1024`, every iteration count the
kernel produces normalizes to `⌊count · 256 / 1024⌋`, which lies in
`[0, 255]`, and count 0 maps to byte 0. -/
theorem normalize_byte_spec (r i : ℚ) :
    normalize_byte (calc_mb_value r i 1024) 1024
      = calc_mb_value r i 1024 * 256 / 1024
    ∧ normalize_byte (calc_mb_value r i 1024) 1024 ≤ 255
    ∧ normalize_byte 0 1024 = 0 := by
  have hle : calc_mb_value r i 1024 ≤ 1023 := calc_mb_value_le r i 1024
  refine ⟨?_, ?_, by simp [normalize_byte]⟩
  · simp only [normalize_byte]
    omega
  · simp only [normalize_byte]
    omega

lemma linspace_length (s t : ℚ) (num : ℕ) : (linspace s t num).length = num := by
  unfold linspace
  split
  · simp
  · rw [List.length_map, List.length_range]

lemma linspace_getElem (s t : ℚ) (num k : ℕ) (h2 : 2 ≤ num) (hk : k < num) :
    (linspace s t num)[k]? = some (s + (t - s) * k / ((num : ℚ) - 1)) := by
  unfold linspace
  rw [if_neg (by omega), List.getElem?_map, List.getElem?_range hk]
  rfl

lemma np_tile_length (l : List ℚ) (n : ℕ) : (np_tile l n).length = n * l.length := by
  unfold np_tile
  induction n with
  | zero => simp
  | succ m ih => simp_all [List.replicate_succ, Nat.succ_mul]; omega

lemma np_repeat_length (l : List ℚ) (n : ℕ) : (np_repeat l n).length = l.length * n := by
  unfold np_repeat
  induction l with
  | nil => simp
  | cons a t ih => simp_all [Nat.succ_mul]; omega

lemma np_tile_getElem (l : List ℚ) (n : ℕ) :
    ∀ k, k < n * l.length → (np_tile l n)[k]? = l[k % l.length]? := by
  induction n with
  | zero => intro k hk; omega
  | succ m ih =>
      intro k hk
      have hstep : np_tile l (m + 1) = l ++ np_tile l m := by
        unfold np_tile; rw [List.replicate_succ, List.flatten_cons]
      rw [hstep]
      by_cases hlt : k < l.length
      · rw [List.getElem?_append, if_pos hlt, Nat.mod_eq_of_lt hlt]
      · push_neg at hlt
        have hexp : (m + 1) * l.length = m * l.length + l.length := by ring
        rw [List.getElem?_append_right hlt, ih (k - l.length) (by omega),
          Nat.mod_eq_sub_mod hlt]

lemma np_repeat_getElem (l : List ℚ) (n : ℕ) (hn : 0 < n) :
    ∀ k, k < l.length * n → (np_repeat l n)[k]? = l[k / n]? := by
  induction l with
  | nil => intro k hk; simp at hk
  | cons a t ih =>
      intro k hk
      have hstep : np_repeat (a :: t) n = List.replicate n a ++ np_repeat t n := by
        unfold np_repeat; rw [List.map_cons, List.flatten_cons]
      rw [hstep]
      by_cases hlt : k < n
      · rw [List.getElem?_append, List.length_replicate, if_pos hlt,
          List.getElem?_replicate, if_pos hlt, Nat.div_eq_of_lt hlt]
        simp
      · push_neg at hlt
        rw [List.getElem?_append_right (by simpa using hlt),
          List.length_replicate, ih (k - n) ?_,
          Nat.div_eq_sub_div hn hlt]
        · simp
        · have hexp : (t.length + 1) * n = t.length * n + n := by ring
          simp only [List.length_cons] at hk
          omega

/-- C4. For every window `(start_r, start_i, rng)` and definition `W ≥ 2`,
`gen_arrays` returns two flat arrays of length `W²` whose entries at flat
index `row·W + col` are the real sample `col` and the imaginary sample
`row`: the real coordinate varies fastest (row-major), with `W` evenly
spaced values over `[start, start + rng]` on each axis. -/
theorem gen_arrays_spec (start_r start_i rng : ℚ) (W row col : ℕ)
    (hW : 2 ≤ W) (hrow : row < W) (hcol : col < W) :
    (gen_arrays start_r start_i rng W).1.length = W * W
    ∧ (gen_arrays start_r start_i rng W).2.length = W * W
    ∧ (gen_arrays start_r start_i rng W).1[row * W + col]?
        = some (start_r + rng * col / ((W : ℚ) - 1))
    ∧ (gen_arrays start_r start_i rng W).2[row * W + col]?
        = some (start_i + rng * row / ((W : ℚ) - 1)) := by
  have hlenr : (linspace start_r (start_r + rng) W).length = W := linspace_length _ _ _
  have hleni : (linspace start_i (start_i + rng) W).length = W := linspace_length _ _ _
  have hidx : row * W + col < W * W := by
    calc row * W + col < row * W + W := by omega
    _ = (row + 1) * W := by ring
    _ ≤ W * W := Nat.mul_le_mul_right W (by omega)
  refine ⟨?_, ?_, ?_, ?_⟩
  · show (np_tile (linspace start_r (start_r + rng) W) W).length = W * W
    rw [np_tile_length, hlenr]
  · show (np_repeat (linspace start_i (start_i + rng) W) W).length = W * W
    rw [np_repeat_length, hleni]
  · show (np_tile (linspace start_r (start_r + rng) W) W)[row * W + col]? = _
    rw [np_tile_getElem _ _ _ (by rw [hlenr]; exact hidx), hlenr]
    have hmod : (row * W + col) % W = col := by
      rw [Nat.mul_comm row W, Nat.mul_add_mod, Nat.mod_eq_of_lt hcol]
    rw [hmod, linspace_getElem _ _ _ _ hW hcol]
    ring_nf
  · show (np_repeat (linspace start_i (start_i + rng) W) W)[row * W + col]? = _
    rw [np_repeat_getElem _ _ (by omega) _ (by rw [hleni]; exact hidx)]
    have hdiv : (row * W + col) / W = row := by
      rw [Nat.add_comm, Nat.add_mul_div_right _ _ (by omega : 0 < W),
        Nat.div_eq_of_lt hcol]
      omega
    rw [hdiv, linspace_getElem _ _ _ _ hW hrow]
    ring_nf

/-- Witness for C4 at `start_r = 0, start_i = 1, rng = 4, W = 2,
row = 1, col = 0`: the grids are `[0,4,0,4]` and `[1,1,5,5]`, so flat
index 2 holds the point `0 + 5i`. -/
theorem gen_arrays_spec_witness :
    (gen_arrays 0 1 4 2).1[2]? = some 0 ∧ (gen_arrays 0 1 4 2).2[2]? = some 5 := by
  have h := gen_arrays_spec 0 1 4 2 1 0 (by norm_num) (by norm_num) (by norm_num)
  norm_num at h
  exact ⟨h.2.2.1, h.2.2.2⟩

/-- C2. The tile-address-to-window mapping is the pure function
`range = (MAX_AXIS - MIN_AXIS) / level`,
`startReal = MIN_AXIS + range·indexReal`,
`startImag = MIN_AXIS + range·indexImag`; address `(1, 0, 0)` maps to
`(-2, -2, 4)`; and `level = 0` fails instead of producing a window. -/
theorem chunk_window_spec (level index_real index_imag : ℕ) :
    (level ≠ 0 → chunk_window level index_real index_imag =
        some (MIN_AXIS + (MAX_AXIS - MIN_AXIS) / (level : ℚ) * index_real,
          MIN_AXIS + (MAX_AXIS - MIN_AXIS) / (level : ℚ) * index_imag,
          (MAX_AXIS - MIN_AXIS) / (level : ℚ)))
    ∧ chunk_window 1 0 0 = some (-2, -2, 4)
    ∧ chunk_window 0 index_real index_imag = none := by
  refine ⟨fun h => by simp [chunk_window, h], ?_, by simp [chunk_window]⟩
  norm_num [chunk_window, MIN_AXIS, MAX_AXIS]

/-- Witness for C2 at `level = 2, indexReal = 1, indexImag = 3`:
the window is `(0, 4, 2)`. -/
theorem chunk_window_spec_witness :
    chunk_window 2 1 3 = some (0, 4, 2) := by
  have h := (chunk_window_spec 2 1 3).1 (by norm_num)
  rw [h]
  norm_num [MIN_AXIS, MAX_AXIS]

/-- Reading back the four little-endian bytes of a `uint32` recovers it. -/
lemma u32_of_le_bytes (count : ℕ) (h : count < 2 ^ 32) :
    u32_of_le (count % 256) (count / 256 % 256) (count / 256 ^ 2 % 256)
      (count / 256 ^ 3 % 256) = count := by
  unfold u32_of_le
  omega

/-- One unrolling of `deserialize_rle` on a full 5-byte run. -/
lemma deserialize_rle_cons5 (b0 b1 b2 b3 v : ℕ) (rest : List ℕ) :
    deserialize_rle (b0 :: b1 :: b2 :: b3 :: v :: rest)
      = (deserialize_rle rest).map
          (fun tail => List.replicate (u32_of_le b0 b1 b2 b3) v ++ tail) := rfl

/-- Decoding succeeds exactly when the body length is a multiple of 5. -/
lemma deserialize_rle_isSome (body : List ℕ) :
    (deserialize_rle body).isSome ↔ body.length % 5 = 0 := by
  induction body using deserialize_rle.induct with
  | case1 => simp [deserialize_rle]
  | case2 b0 b1 b2 b3 v rest ih =>
      rw [deserialize_rle_cons5]
      cases hd : deserialize_rle rest with
      | none =>
          have ihn := ih
          rw [hd] at ihn
          simp only [Option.isSome_none, Bool.false_eq_true, false_iff] at ihn
          simp [hd]
          omega
      | some tail =>
          have ihs := ih
          rw [hd] at ihs
          simp only [Option.isSome_some, true_iff] at ihs
          simp [hd]
          omega
  | case3 l h1 h2 =>
      rcases l with _ | ⟨a, _ | ⟨b, _ | ⟨c, _ | ⟨d, _ | ⟨e, t⟩⟩⟩⟩⟩
      · exact absurd rfl h1
      · show (deserialize_rle [a]).isSome ↔ 1 % 5 = 0
        simp [deserialize_rle]
      · show (deserialize_rle [a, b]).isSome ↔ 2 % 5 = 0
        simp [deserialize_rle]
      · show (deserialize_rle [a, b, c]).isSome ↔ 3 % 5 = 0
        simp [deserialize_rle]
      · show (deserialize_rle [a, b, c, d]).isSome ↔ 4 % 5 = 0
        simp [deserialize_rle]
      · exact absurd rfl (h2 a b c d e t)

/-- C5. Decoding a well-formed RLE body — the concatenated 5-byte wire
forms of a list of runs — yields the concatenation, in run order, of
`count` copies of each run's value. -/
theorem deserialize_rle_spec (runs : List (ℕ × ℕ))
    (h : ∀ p ∈ runs, p.1 < 2 ^ 32) :
    deserialize_rle (runs.flatMap fun p => rle_run_bytes p.1 p.2)
      = some (runs.flatMap fun p => List.replicate p.1 p.2) := by
  induction runs with
  | nil => simp [deserialize_rle]
  | cons p rest ih =>
      have hp : p.1 < 2 ^ 32 := h p (List.mem_cons_self p rest)
      have hrest := ih (fun q hq => h q (List.mem_cons_of_mem p hq))
      obtain ⟨c, v⟩ := p
      rw [List.flatMap_cons, List.flatMap_cons]
      show deserialize_rle (c % 256 :: c / 256 % 256 :: c / 256 ^ 2 % 256
          :: c / 256 ^ 3 % 256 :: v :: (rest.flatMap fun p => rle_run_bytes p.1 p.2))
        = some (List.replicate c v ++ rest.flatMap fun p => List.replicate p.1 p.2)
      rw [deserialize_rle_cons5, hrest, u32_of_le_bytes c hp]
      rfl

/-- Witness for C5 at `counts = [10, 6]`, `values = [5, 200]`: ten bytes
of 5 then six bytes of 200. -/
theorem deserialize_rle_spec_witness :
    deserialize_rle [10, 0, 0, 0, 5, 6, 0, 0, 0, 200]
      = some [5, 5, 5, 5, 5, 5, 5, 5, 5, 5, 200, 200, 200, 200, 200, 200] := by
  have h := deserialize_rle_spec [(10, 5), (6, 200)] (by decide)
  simpa [rle_run_bytes, List.flatMap_cons, List.replicate] using h

/-- C6. Decoding a received tile payload fails — and the caller gets no
tile at all — exactly when the tag byte is neither 0 nor 1, or the RLE
body length is not a multiple of 5, or the reconstructed byte sequence
does not have exactly `CHUNK_WIDTH² = 4096²` bytes. -/
theorem get_chunk_grid_spec (t : ℕ) (body : List ℕ) :
    get_chunk_grid (t :: body) = none ↔
      (t ≠ 0 ∧ t ≠ 1)
      ∨ (t = 1 ∧ body.length % 5 ≠ 0)
      ∨ (∃ d, chunk_data_to_value_array (t :: body) = some d
            ∧ d.length ≠ CHUNK_WIDTH * CHUNK_WIDTH) := by
  by_cases h0 : t = 0
  · subst h0
    simp only [get_chunk_grid, chunk_data_to_value_array, if_pos rfl]
    by_cases hl : body.length = CHUNK_WIDTH * CHUNK_WIDTH <;>
      simp [hl, Option.bind]
  · by_cases h1 : t = 1
    · subst h1
      simp only [get_chunk_grid, chunk_data_to_value_array, if_neg h0]
      rcases hd : deserialize_rle body with _ | d
      · have := (deserialize_rle_isSome body).not
        simp [hd] at this
        simp [hd, this]
      · have hsome := (deserialize_rle_isSome body).mp (by simp [hd])
        by_cases hl : d.length = CHUNK_WIDTH * CHUNK_WIDTH <;>
          simp [hd, hl, hsome]
    · simp [get_chunk_grid, chunk_data_to_value_array, h0, h1]

/-- One unrolling of the read loop on a nonempty stream. -/
lemma recv_msg_loop_succ (sched : ℕ → ℕ) (stream : List ℕ) (step need : ℕ)
    (hs : ¬ stream.length = 0) :
    recv_msg_loop sched stream step (need + 1)
      = (recv_msg_loop sched
            (stream.drop (recv_len sched step (need + 1) stream.length))
            (step + 1)
            (need + 1 - recv_len sched step (need + 1) stream.length)).map
          (fun rest =>
            stream.take (recv_len sched step (need + 1) stream.length) ++ rest) := by
  rw [recv_msg_loop, if_neg hs]

/-- The loop drains exactly `need` bytes when they are available and
raises when the stream ends first, for every chunk schedule. -/
lemma recv_msg_loop_spec (sched : ℕ → ℕ) :
    ∀ need : ℕ, ∀ stream : List ℕ, ∀ step : ℕ,
      (need ≤ stream.length →
        recv_msg_loop sched stream step need = some (stream.take need))
      ∧ (stream.length < need → recv_msg_loop sched stream step need = none) := by
  intro need
  induction need using Nat.strong_induction_on with
  | _ need ih =>
      match need with
      | 0 =>
          intro stream step
          exact ⟨fun _ => by simp [recv_msg_loop], fun h => absurd h (by omega)⟩
      | need + 1 =>
          intro stream step
          by_cases hs : stream.length = 0
          · refine ⟨fun h => absurd h (by omega), fun _ => ?_⟩
            rw [recv_msg_loop, if_pos hs]
          · have hlen : 1 ≤ stream.length := by omega
            set k := recv_len sched step (need + 1) stream.length with hk
            have hk1 : 1 ≤ k := by simp only [hk, recv_len]; omega
            have hkle : k ≤ need + 1 := by simp only [hk, recv_len]; omega
            have hkls : k ≤ stream.length := by simp only [hk, recv_len]; omega
            have hrec := ih (need + 1 - k) (by omega) (stream.drop k) (step + 1)
            constructor
            · intro h
              rw [recv_msg_loop_succ sched stream step need hs, ← hk]
              have h1 := hrec.1 (by simp [List.length_drop]; omega)
              rw [h1]
              show some (stream.take k ++ (stream.drop k).take (need + 1 - k))
                = some (stream.take (need + 1))
              have hsum : k + (need + 1 - k) = need + 1 := by omega
              rw [← List.take_add, hsum]
            · intro h
              rw [recv_msg_loop_succ sched stream step need hs, ← hk]
              have hkn : k < need + 1 := by simp only [hk, recv_len]; omega
              have h2 := hrec.2 (by simp [List.length_drop]; omega)
              rw [h2]
              rfl

/-- C8 (amended). `recv_sock_msg_by_len(s, n)` loops over short reads and
returns exactly the first `n` bytes of the stream, for every chunking of
the stream into reads, and raises when end-of-stream arrives before `n`
bytes; the 1-byte, 4-byte and 12-byte reads elsewhere in the clients are
single `recv` calls and do NOT loop (see
`receive_workload_short_read`). -/
theorem recv_sock_msg_by_len_spec (sched : ℕ → ℕ) (stream : List ℕ) (n : ℕ) :
    (n ≤ stream.length →
      recv_sock_msg_by_len sched stream n = some (stream.take n))
    ∧ (stream.length < n → recv_sock_msg_by_len sched stream n = none) :=
  recv_msg_loop_spec sched n stream 0

/-- Witness for C8: on stream `[1, 2, 3]` delivered one byte per `recv`,
reading 2 bytes yields `[1, 2]` and reading 5 raises. -/
theorem recv_sock_msg_by_len_spec_witness :
    recv_sock_msg_by_len (fun _ => 1) [1, 2, 3] 2 = some [1, 2]
    ∧ recv_sock_msg_by_len (fun _ => 1) [1, 2, 3] 5 = none := by
  constructor
  · have h := (recv_sock_msg_by_len_spec (fun _ => 1) [1, 2, 3] 2).1 (by decide)
    simpa using h
  · exact (recv_sock_msg_by_len_spec (fun _ => 1) [1, 2, 3] 5).2 (by decide)

/-- Counterexample to C8 as stated: the 12-byte address read does not
drain short reads.  With 12 bytes available but delivered 2 per `recv`,
`receive_workload` raises instead of looping to collect them. -/
theorem receive_workload_short_read :
    receive_workload (fun _ => 2) (List.replicate 12 0) = none
    ∧ 12 ≤ (List.replicate 12 (0 : ℕ)).length := by
  constructor
  · rfl
  · simp

/-- Counterexample to C9 as stated: on a Reject status the viewer's
`get_chunk` raises an exception — it does not return a no-data result. -/
theorem get_chunk_reject_raises :
    get_chunk_status_dispatch REQUEST_REJECT_CODE ≠ ViewerOutcome.noData := by
  decide

/-- C9 (amended). The viewer returns a no-data result on NotAvailable,
reading no body, but raises on Reject; the worker returns True (its loop
continues) on WorkloadReject and returns False without an exception on
WorkloadNotAvailable. -/
theorem reject_handling :
    get_chunk_status_dispatch REQUEST_NOT_AVAILABLE_CODE = ViewerOutcome.noData
    ∧ get_chunk_status_dispatch REQUEST_REJECT_CODE = ViewerOutcome.raiseRejected
    ∧ do_workload_push_dispatch WORKLOAD_REJECT_CODE
        = WorkerPushOutcome.rejectContinue
    ∧ do_workload_pull_dispatch WORKLOAD_NOT_AVAILABLE_CODE
        = WorkerPullOutcome.stopFalse := by
  refine ⟨rfl, rfl, rfl, rfl⟩

/-- C7. Once an address is `Completed`, every later `SubmitResult` for it,
from any worker and with any bytes, returns `Reject` and leaves the whole
coordinator state — in particular the cached tile for that address —
unchanged. -/
theorem submit_result_completed (st : ℕ × ℕ × ℕ → AddrState) (workerId : ℕ)
    (address : ℕ × ℕ × ℕ) (tileBytes tile : List ℕ)
    (h : st address = AddrState.completed tile) :
    submit_result st workerId address tileBytes = (SubmitStatus.reject, st)
    ∧ (submit_result st workerId address tileBytes).2 address
      = AddrState.completed tile := by
  refine ⟨?_, ?_⟩ <;> simp [submit_result, h]

/-- Witness for C7: a stale submission from worker 7 for the completed
address `(1, 2, 3)` is rejected and the cached tile stays `[9, 9]`. -/
theorem submit_result_completed_witness :
    submit_result example_completed_state 7 (1, 2, 3) [4, 4]
      = (SubmitStatus.reject, example_completed_state)
    ∧ (submit_result example_completed_state 7 (1, 2, 3) [4, 4]).2 (1, 2, 3)
      = AddrState.completed [9, 9] :=
  submit_result_completed example_completed_state 7 (1, 2, 3) [4, 4] [9, 9]
    (by decide)

end DistributedMandelbrot
